import Mathlib

/-!
Verification of the Copperhead declarative binary codec framework
(`protopy/primitives.py`, `protopy/containers.py`), via a shallow embedding:
byte streams are lists of naturals (< 256 in well-formed data), Python ints
are `Int`/`Nat`, raisable calls return `Except String`, and Python 2's
`None`-vs-int comparison semantics (`None` below every int) are modelled
explicitly on `Option Int`.
-/

namespace Copperhead

/-! ## Byte-level helpers (struct.pack / int decoding semantics) -/

/-- Big-endian bytes of `v`, exactly `w` bytes (`struct.pack(">...")` on a
value already validated to fit). -/
def natToBytesBE : Nat → Nat → List Nat
  | 0, _ => []
  | w + 1, v => natToBytesBE w (v / 256) ++ [v % 256]

/-- Big-endian byte list to natural (`int.from_bytes(..., "big")` /
`struct.unpack` semantics). -/
def bytesToNatBE (bs : List Nat) : Nat :=
  bs.foldl (fun a b => a * 256 + b) 0

@[simp] theorem natToBytesBE_length (w v : Nat) :
    (natToBytesBE w v).length = w := by
  induction w generalizing v with
  | zero => rfl
  | succ w ih => simp [natToBytesBE, ih]

theorem bytesToNatBE_snoc (bs : List Nat) (b : Nat) :
    bytesToNatBE (bs ++ [b]) = bytesToNatBE bs * 256 + b := by
  simp [bytesToNatBE]

theorem bytesToNatBE_natToBytesBE (w v : Nat) :
    bytesToNatBE (natToBytesBE w v) = v % 256 ^ w := by
  induction w generalizing v with
  | zero => simp [natToBytesBE, bytesToNatBE, Nat.mod_one]
  | succ w ih =>
    rw [natToBytesBE, bytesToNatBE_snoc, ih]
    rw [Nat.pow_succ, Nat.mul_comm (256 ^ w) 256, Nat.mod_mul]
    ring

/-- Byte order of a coder (`ByteOrder` enum: `MSB_FIRST` = "big",
`LSB_FIRST` = "little"). -/
inductive BOrder where
  | msbFirst
  | lsbFirst
  deriving DecidableEq, Repr

/-- Serialize `v` into exactly `w` bytes in the given byte order. -/
def encBytes (bo : BOrder) (w v : Nat) : List Nat :=
  match bo with
  | .msbFirst => natToBytesBE w v
  | .lsbFirst => (natToBytesBE w v).reverse

/-- Read a `w`-byte integer in the given byte order. -/
def decBytes (bo : BOrder) (bs : List Nat) : Nat :=
  match bo with
  | .msbFirst => bytesToNatBE bs
  | .lsbFirst => bytesToNatBE bs.reverse

@[simp] theorem encBytes_length (bo : BOrder) (w v : Nat) :
    (encBytes bo w v).length = w := by
  cases bo <;> simp [encBytes]

theorem decBytes_encBytes (bo : BOrder) (w v : Nat) (h : v < 256 ^ w) :
    decBytes bo (encBytes bo w v) = v := by
  cases bo <;>
    simp [encBytes, decBytes, bytesToNatBE_natToBytesBE, Nat.mod_eq_of_lt h]

/-! ## Fixed-width integer coders
(`UnsignedInteger` and `SignedInteger` in `protopy/primitives.py`; they
differ only in `get_bounds` and the `SIGNED` flag, captured here by the
`signed` field). -/

/-- Constructor parameters of `UnsignedInteger.__init__` /
`SignedInteger.__init__` (plus the class-level `SIGNED` flag). -/
structure IntCoder where
  signed : Bool
  width : Nat
  minValue : Option Int := none
  maxValue : Option Int := none
  byteOrder : BOrder := .msbFirst
  deriving DecidableEq, Repr

namespace IntCoder

/-- `STANDARD_WIDTHS` keys: the `__init__` width check. -/
def standardWidth (w : Nat) : Bool :=
  w = 1 || w = 2 || w = 4 || w = 8

/-- `get_bounds`: natural lower bound (0 unsigned, -2^(8w-1) signed). -/
def natMin (c : IntCoder) : Int :=
  if c.signed then -(2 ^ (8 * c.width - 1) : Int) else 0

/-- `get_bounds`: natural upper bound (2^(8w)-1 unsigned,
2^(8w-1)-1 signed). -/
def natMax (c : IntCoder) : Int :=
  if c.signed then (2 ^ (8 * c.width - 1) : Int) - 1 else (2 ^ (8 * c.width) : Int) - 1

/-- `self.min` after `__init__`: starts at the natural minimum, replaced by
`min_value` only when `min_value > self.min`. -/
def effMin (c : IntCoder) : Int :=
  match c.minValue with
  | some m => if m > c.natMin then m else c.natMin
  | none => c.natMin

/-- `self.max` after `__init__`: starts at the natural maximum, replaced by
`max_value` only when `max_value < self.max`. -/
def effMax (c : IntCoder) : Int :=
  match c.maxValue with
  | some m => if m < c.natMax then m else c.natMax
  | none => c.natMax

/-- `validate`: `self.min <= value <= self.max` or `ValueError`. -/
def validate (c : IntCoder) (v : Int) : Except String Unit :=
  if c.effMin ≤ v ∧ v ≤ c.effMax then .ok ()
  else .error "value is out of [min, max]"

/-- `struct.pack`: fails unless the value fits the machine format; packs the
two's-complement byte pattern. -/
def pack (c : IntCoder) (v : Int) : Except String (List Nat) :=
  if c.natMin ≤ v ∧ v ≤ c.natMax then
    .ok (encBytes c.byteOrder c.width (v % (2 ^ (8 * c.width))).toNat)
  else .error "struct.error: value out of machine range"

/-- `encode`: validate then `struct.pack`. -/
def encode (c : IntCoder) (v : Int) : Except String (List Nat) := do
  c.validate v
  c.pack v

/-- `_decode_using_int` / `_decode_using_struct`: interpret `width` bytes as
an unsigned or two's-complement signed integer. -/
def decodeFunc (c : IntCoder) (bs : List Nat) : Int :=
  let u : Nat := decBytes c.byteOrder bs
  if c.signed ∧ 2 ^ (8 * c.width - 1) ≤ u then
    (u : Int) - (2 ^ (8 * c.width) : Int)
  else (u : Int)

/-- `decode`: slice `width` bytes off the front of the buffer (error
"Premature end of data" when shorter), decode, then validate; returns the
value and the remainder. -/
def decode (c : IntCoder) (buf : List Nat) : Except String (Int × List Nat) :=
  if (buf.take c.width).length ≠ c.width then
    .error "Premature end of data"
  else do
    c.validate (c.decodeFunc (buf.take c.width))
    .ok (c.decodeFunc (buf.take c.width), buf.drop c.width)

/-- `read_from`: read exactly `width` bytes from the stream (error when the
stream has fewer), then `decode` them; the stream advances by `width`. -/
def readFrom (c : IntCoder) (data : List Nat) : Except String (Int × List Nat) :=
  if (data.take c.width).length < c.width then
    .error "Cannot decode - reached end of data"
  else do
    let (decoded, _) ← c.decode (data.take c.width)
    .ok (decoded, data.drop c.width)

theorem effMin_ge_natMin (c : IntCoder) : c.natMin ≤ c.effMin := by
  unfold effMin
  cases c.minValue with
  | none => exact le_refl _
  | some m => simp only; split <;> omega

theorem effMax_le_natMax (c : IntCoder) : c.effMax ≤ c.natMax := by
  unfold effMax
  cases c.maxValue with
  | none => exact le_refl _
  | some m => simp only; split <;> omega

theorem natMin_le_natMax (c : IntCoder) (_hw : 0 < c.width) :
    c.natMin ≤ c.natMax := by
  have h1 : (0:Int) < 2 ^ (8 * c.width - 1) := by positivity
  have h2 : (0:Int) < 2 ^ (8 * c.width) := by positivity
  unfold natMin natMax
  split <;> omega

/-- Machine-range values pack to exactly `width` bytes. -/
theorem pack_ok (c : IntCoder) (v : Int)
    (h : c.natMin ≤ v ∧ v ≤ c.natMax) :
    c.pack v = .ok (encBytes c.byteOrder c.width (v % (2 ^ (8 * c.width))).toNat) := by
  simp [pack, h]

theorem decodeFunc_encBytes (c : IntCoder) (v : Int) (hw : 0 < c.width)
    (h : c.natMin ≤ v ∧ v ≤ c.natMax) :
    c.decodeFunc (encBytes c.byteOrder c.width (v % (2 ^ (8 * c.width))).toNat) = v := by
  have hMH : (2:Int) ^ (8 * c.width) = 2 * 2 ^ (8 * c.width - 1) := by
    conv_lhs => rw [show 8 * c.width = (8 * c.width - 1) + 1 from by omega]
    rw [pow_succ]; ring
  have castH : (((2:Nat) ^ (8 * c.width - 1) : Nat) : Int) = (2:Int) ^ (8 * c.width - 1) := by
    push_cast; ring
  have hM : (0:Int) < 2 ^ (8 * c.width) := by positivity
  have hpow : (256:Nat) ^ c.width = 2 ^ (8 * c.width) := by
    rw [Nat.pow_mul]
  have hemod₀ : 0 ≤ v % (2 ^ (8 * c.width)) := Int.emod_nonneg v (by omega)
  have hemod₁ : v % (2 ^ (8 * c.width)) < 2 ^ (8 * c.width) :=
    Int.emod_lt_of_pos v hM
  have hlt : (v % (2 ^ (8 * c.width))).toNat < 256 ^ c.width := by
    rw [hpow]
    have castM : (((2:Nat) ^ (8 * c.width) : Nat) : Int) = (2:Int) ^ (8 * c.width) := by
      push_cast; ring
    omega
  unfold decodeFunc
  rw [decBytes_encBytes _ _ _ hlt]
  cases hs : c.signed with
  | true =>
    -- signed: two's-complement round-trip
    have hbounds : -(2 ^ (8 * c.width - 1) : Int) ≤ v ∧ v ≤ (2 ^ (8 * c.width - 1) : Int) - 1 := by
      have := h
      unfold natMin natMax at this
      rw [hs] at this
      simpa using this
    by_cases hneg : v < 0
    · have hv : v % (2 ^ (8 * c.width)) = v + 2 ^ (8 * c.width) := by
        have h1 : (0:Int) ≤ v + 2 ^ (8 * c.width) := by omega
        have h2 : v + 2 ^ (8 * c.width) < 2 ^ (8 * c.width) := by omega
        calc v % (2 ^ (8 * c.width))
            = (v + 2 ^ (8 * c.width) * 1) % (2 ^ (8 * c.width)) := by
              rw [Int.add_mul_emod_self_left]
          _ = (v + 2 ^ (8 * c.width)) % (2 ^ (8 * c.width)) := by rw [mul_one]
          _ = v + 2 ^ (8 * c.width) := Int.emod_eq_of_lt h1 h2
      rw [hv]
      have hge : 2 ^ (8 * c.width - 1) ≤ (v + 2 ^ (8 * c.width) : Int).toNat := by
        omega
      simp only [hs, hge, and_self, if_true, true_and]
      omega
    · have hv : v % (2 ^ (8 * c.width)) = v := by
        apply Int.emod_eq_of_lt (by omega) (by omega)
      rw [hv]
      have hlt2 : ¬ (2 ^ (8 * c.width - 1) ≤ v.toNat) := by
        omega
      simp only [hs, hlt2, and_false, if_false, true_and]
      omega
  | false =>
    -- unsigned
    have hbounds : (0:Int) ≤ v ∧ v ≤ (2 ^ (8 * c.width) : Int) - 1 := by
      have := h
      unfold natMin natMax at this
      rw [hs] at this
      simpa using this
    have hv : v % (2 ^ (8 * c.width)) = v := by
      apply Int.emod_eq_of_lt (by omega) (by omega)
    simp only [hs, Bool.false_eq_true, false_and, if_false]
    rw [hv]
    omega

/-- In-effective-bounds values are in machine range. -/
theorem inBounds_machine (c : IntCoder) (v : Int)
    (h : c.effMin ≤ v ∧ v ≤ c.effMax) :
    c.natMin ≤ v ∧ v ≤ c.natMax := by
  have h1 := c.effMin_ge_natMin
  have h2 := c.effMax_le_natMax
  omega

/-- Round trip for the fixed-width integer coders: a value within the
effective bounds encodes to exactly `width` bytes, and decoding them (with
any trailing data) recovers the value and leaves the trailing data. -/
theorem roundtrip (c : IntCoder) (v : Int) (hw : 0 < c.width)
    (h : c.effMin ≤ v ∧ v ≤ c.effMax) :
    ∃ bs, c.encode v = .ok bs ∧ bs.length = c.width ∧
      ∀ rest, c.readFrom (bs ++ rest) = .ok (v, rest) := by
  have hm := c.inBounds_machine v h
  have hval : c.validate v = .ok () := by simp [validate, h]
  set bs := encBytes c.byteOrder c.width (v % (2 ^ (8 * c.width))).toNat with hbs
  have hlen : bs.length = c.width := by simp [hbs]
  refine ⟨bs, ?_, hlen, ?_⟩
  · simp only [encode, hval, pack_ok c v hm, ← hbs]
    rfl
  · intro rest
    have htake : (bs ++ rest).take c.width = bs := by
      rw [List.take_append_of_le_length (by omega), List.take_of_length_le (by omega)]
    have hdrop : (bs ++ rest).drop c.width = rest := by
      rw [List.drop_append_of_le_length (by omega), List.drop_of_length_le (by omega)]
      simp
    have hdec : c.decode bs = .ok (v, []) := by
      unfold decode
      rw [List.take_of_length_le (by omega), hlen]
      simp only [ne_eq, not_true_eq_false, if_false]
      rw [hbs, decodeFunc_encBytes c v hw hm, ← hbs, hval]
      have : bs.drop c.width = [] := by
        apply List.drop_eq_nil_of_le; omega
      rw [this]
      rfl
    unfold readFrom
    rw [htake, hlen]
    simp only [lt_irrefl, if_false, hdec, hdrop]
    rfl

end IntCoder

/-! ## Values and the uniform coder interface
Python values handled by the framework, as one universe; a `PCoder` is the
duck-typed coder interface (`write_to`/`read_from` on list-backed streams:
`write` returns the bytes appended to the sink, `readF` returns the decoded
value and the stream position after it). -/

inductive Value where
  | int (i : Int)
  | bool (b : Bool)
  | str (codes : List Nat)
  | list (xs : List Value)
  | record (fields : List (String × Value))
  | choice (tag : Int) (val : Value)
  | bits (backing : Nat)

structure PCoder where
  write : Value → Except String (List Nat)
  readF : List Nat → Except String (Value × List Nat)

/-- `UnsignedInteger` / `SignedInteger` as a `PCoder`. -/
def intPC (c : IntCoder) : PCoder where
  write v :=
    match v with
    | .int i => c.encode i
    | _ => .error "TypeError: not an integer"
  readF data := do
    let (i, rest) ← c.readFrom data
    .ok (.int i, rest)

/-! ## Boolean (`protopy/primitives.py`)
A 1-byte `UnsignedInteger` specialization: `encode` emits `\x01`/`\x00`
without validation; decoding maps `\x00` to `False` and anything else to
`True`, then runs the inherited range validation on the `bool` (which
Python coerces to 0/1). -/

/-- The underlying coder built by `Boolean.__init__` (width 1, no user
bounds). -/
def booleanIntCoder : IntCoder := { signed := false, width := 1 }

def pyBoolToInt (b : Bool) : Int := if b then 1 else 0

def boolPC : PCoder where
  write v :=
    match v with
    | .bool b => .ok [if b then 1 else 0]
    | _ => .error "TypeError: not a bool"
  readF data :=
    -- UnsignedInteger.read_from with `_decode_func = _decode_bool`
    if (data.take 1).length < 1 then .error "Cannot decode - reached end of data"
    else do
      let b := decide (data.take 1 ≠ [0])
      booleanIntCoder.validate (pyBoolToInt b)
      .ok (.bool b, data.drop 1)

/-! ## Enumeration (`protopy/containers.py`)
`EnumerationMeta` attaches an `UnsignedInteger` (`__width__`, default 1) to
the enum class; writing delegates to that coder (the value is an enum
member by construction), reading decodes the integer then requires
membership (`self(value)` raises `ValueError` otherwise). -/

structure EnumCoder where
  width : Nat := 1
  byteOrder : BOrder := .msbFirst
  members : List Int

namespace EnumCoder

/-- The `__coder__` built by `EnumerationMeta.__new__`. -/
def coder (e : EnumCoder) : IntCoder :=
  { signed := false, width := e.width, byteOrder := e.byteOrder }

def toPC (e : EnumCoder) : PCoder where
  write v :=
    match v with
    | .int i =>
      if e.members.contains i then e.coder.encode i
      else .error "TypeError: not a member of the enumeration"
    | _ => .error "TypeError: not an integer"
  readF data := do
    let (i, rest) ← e.coder.readFrom data
    if e.members.contains i then .ok (.int i, rest)
    else .error "ValueError: decoded value is not a member of the enumeration"

end EnumCoder

/-! ## String (`protopy/primitives.py`)
Null-terminated ASCII, optional `max_length` which counts the terminator.
`__init__` keeps `max_length` only when `max_length >= 0` (under Python 2,
`None >= 0` is `False`, so `None` stays `None`). -/

/-- `String.__init__`: `self.max_length = max_length if max_length >= 0 else None`. -/
def stringInit (maxLength : Option Int) : Option Int :=
  match maxLength with
  | some m => if m ≥ 0 then some m else none
  | none => none

/-- The condition `self.max_length is not None and read >= self.max_length`. -/
def stringMaxHit (readCount : Nat) : Option Int → Bool
  | some m => (readCount : Int) ≥ m
  | none => false

/-- One-byte-at-a-time loop of `String.read_from`, step-indexed: `none`
means the loop is still running after `fuel` iterations (reading from an
exhausted list-backed stream yields the empty string, which is not the NULL
terminator, so with no `max_length` the loop never exits). -/
def stringLoop (maxLength : Option Int) : Nat → List Nat → List Nat → Nat →
    Option (Except String (List Nat × List Nat))
  | 0, _, _, _ => none
  | fuel + 1, data, acc, readCount =>
    if stringMaxHit readCount maxLength then
      some (.error "Reached maximum length of string without encountering a NULL terminator")
    else
      match data with
      | [] => stringLoop maxLength fuel [] acc (readCount + 1)
      | b :: rest =>
        if b = 0 then some (.ok (acc, rest))
        else stringLoop maxLength fuel rest (acc ++ [b]) (readCount + 1)

/-- Enough fuel for every terminating execution of the loop. -/
def stringFuel (maxLength : Option Int) (data : List Nat) : Nat :=
  data.length + 2 + (match maxLength with | some m => m.toNat | none => 0)

/-- `self.max_length is not None and total_length > self.max_length`. -/
def stringTooLong (total : Int) : Option Int → Bool
  | some m => total > m
  | none => false

/-- The loop terminates on this input (some iteration count returns). -/
def StringReadTerminates (maxLength : Option Int) (data : List Nat) : Prop :=
  ∃ fuel r, stringLoop maxLength fuel data [] 0 = some r

def stringPC (maxLength : Option Int) : PCoder where
  write v :=
    match v with
    | .str codes =>
      -- asciify: fails on non-ASCII code points
      if codes.any (fun ch => 128 ≤ ch) then .error "ValueError: not ascii"
      -- `if Char.NULL in ascii`
      else if codes.contains 0 then
        .error "NULL character cannot appear in the string"
      else
        -- total_length = len(ascii) + 1, checked against max_length when set
        if stringTooLong ((codes.length : Int) + 1) maxLength then
          .error "String length is larger than the specified limit"
        else .ok (codes ++ [0])
    | _ => .error "TypeError: not a string"
  readF data :=
    match stringLoop maxLength (stringFuel maxLength data) data [] 0 with
    | none => .error "UNBOUNDED: String.read_from loops forever on this input"
    | some (.error e) => .error e
    | some (.ok (acc, rest)) =>
      -- unasciify: fails on non-ASCII bytes
      if acc.any (fun ch => 128 ≤ ch) then .error "ValueError: not ascii"
      else .ok (.str acc, rest)

/-! ## Sequence (`protopy/primitives.py`)
Repeats an element coder; optionally a count prefix. Python 2 comparison
semantics against `None` (`None` smaller than every int, so
`count <= None` is `False` and `2 ** (8*width) >= None` is `True`) are
spelled out on `Option Int`. -/

/-- `count <= self.max` under Python 2 (`self.max` may be `None`). -/
def pyLeNatOpt (n : Nat) : Option Int → Bool
  | some m => (n : Int) ≤ m
  | none => false

/-- `len(items) < self.max` under Python 2. -/
def pyLtNatOpt (n : Nat) : Option Int → Bool
  | some m => (n : Int) < m
  | none => false

/-- `UnsignedInteger.capable_of`: the first standard width (ascending) with
`2 ** (8 * width) >= max_value`; under Python 2 every width satisfies this
when `max_value` is `None`. `none` means the final `ValueError`. -/
def capableWidth (maxValue : Option Int) : Option Nat :=
  match maxValue with
  | none => some 1
  | some m =>
    if ((2:Int) ^ 8) ≥ m then some 1
    else if ((2:Int) ^ 16) ≥ m then some 2
    else if ((2:Int) ^ 32) ≥ m then some 4
    else if ((2:Int) ^ 64) ≥ m then some 8
    else none

/-- Constructor parameters of `Sequence.__init__` other than the element
coder (`length_width` is stored but never used to build the length coder). -/
structure SeqCfg where
  maxLength : Option Int := none
  minLength : Int := 0
  includeLength : Bool := false
  lengthWidth : Option Nat := none
  deriving DecidableEq, Repr

/-- `self.length_coder = UnsignedInteger.capable_of(self.max, min_value=self.min)`. -/
def lengthCoderFor (cfg : SeqCfg) : IntCoder :=
  { signed := false
    width := (capableWidth cfg.maxLength).getD 0
    minValue := some cfg.minLength
    maxValue := cfg.maxLength }

/-- `Sequence.validate`: `self.min <= count <= self.max` or `ValueError`. -/
def seqValidate (cfg : SeqCfg) (n : Nat) : Except String Unit :=
  if cfg.minLength ≤ (n : Int) ∧ pyLeNatOpt n cfg.maxLength then .ok ()
  else .error "Number of elements is not in [min, max]"

/-- `_write_elements`: each element in order through the element coder. -/
def writeElements (elem : PCoder) : List Value → Except String (List Nat)
  | [] => .ok []
  | x :: xs => do
    let b ← elem.write x
    let bs ← writeElements elem xs
    .ok (b ++ bs)

/-- `_read_elements` for a counted sequence: exactly `count` elements
(`xrange(count)` is empty for a non-positive count). -/
def readElements (elem : PCoder) : Nat → List Nat → Except String (List Value × List Nat)
  | 0, data => .ok ([], data)
  | n + 1, data => do
    let (x, rest) ← elem.readF data
    let (xs, rest2) ← readElements elem n rest
    .ok (x :: xs, rest2)

/-- `_read_countless`: `while data and len(items) < self.max`, decoding one
element per iteration; the fuel is `max - len(items)`, which the loop
decrements every iteration. -/
def readCountless (elem : PCoder) : Nat → List Nat → Except String (List Value)
  | 0, _ => .ok []
  | _ + 1, [] => .ok []
  | k + 1, b :: rest => do
    let (x, rest2) ← elem.readF (b :: rest)
    let xs ← readCountless elem k rest2
    .ok (x :: xs)

/-- Initial countless budget: with `self.max = None`, `len(items) < None`
is `False` under Python 2 and the loop body never runs. -/
def countlessBudget : Option Int → Nat
  | some m => m.toNat
  | none => 0

/-- The `Sequence` object as a `PCoder` (assuming construction succeeded). -/
def sequencePC (elem : PCoder) (cfg : SeqCfg) : PCoder where
  write v :=
    match v with
    | .list xs => do
      seqValidate cfg xs.length
      -- _write_length: only when include_length is set
      let lenBytes ← if cfg.includeLength then (lengthCoderFor cfg).encode xs.length
                     else .ok ([] : List Nat)
      let body ← writeElements elem xs
      .ok (lenBytes ++ body)
    | _ => .error "TypeError: not a list"
  readF data :=
    if cfg.includeLength then do
      let (count, rest) ← (lengthCoderFor cfg).readFrom data
      let (xs, rest2) ← readElements elem count.toNat rest
      seqValidate cfg xs.length
      .ok (.list xs, rest2)
    else do
      -- `data = stream.read()` consumes the whole stream: whatever the loop
      -- does not decode is discarded, the stream finishes exhausted.
      let xs ← readCountless elem (countlessBudget cfg.maxLength) data
      seqValidate cfg xs.length
      .ok (.list xs, [])

/-- `Sequence.__init__`: rejects a configuration with neither `max_length`
nor `length_width`, then builds the length coder via `capable_of` (which
itself can fail). -/
def sequenceInit (elem : PCoder) (cfg : SeqCfg) : Except String PCoder :=
  if cfg.maxLength = none ∧ cfg.lengthWidth = none then
    .error "You must specify either max_length or length_width. Unbound sequences are not allowed."
  else
    match capableWidth cfg.maxLength with
    | none => .error "Value is too large for standard integer widths"
    | some _ => .ok (sequencePC elem cfg)

/-! ## Record (`protopy/containers.py`)
A `Record` instance writes every member of its (already ordered) schema in
order via `getattr`; `RecordBase.read_from` reads each member in schema
order and rebuilds the record from the complete value set. A record value
is its ordered `(name, value)` member list. -/

def writeMembers : List (String × PCoder) → List (String × Value) → Except String (List Nat)
  | [], [] => .ok []
  | [], _ :: _ => .error "AttributeError: value for an undeclared member"
  | _ :: _, [] => .error "AttributeError: missing member value"
  | (n, c) :: ms, (n2, v) :: vs =>
    if n2 = n then do
      let b ← c.write v
      let bs ← writeMembers ms vs
      .ok (b ++ bs)
    else .error "AttributeError: members out of schema order"

def readMembers : List (String × PCoder) → List Nat →
    Except String (List (String × Value) × List Nat)
  | [], data => .ok ([], data)
  | (n, c) :: ms, data => do
    let (v, rest) ← c.readF data
    let (vs, rest2) ← readMembers ms rest
    .ok ((n, v) :: vs, rest2)

def recordPC (ms : List (String × PCoder)) : PCoder where
  write v :=
    match v with
    | .record vals => writeMembers ms vals
    | _ => .error "TypeError: not a record"
  readF data := do
    let (vals, rest) ← readMembers ms data
    .ok (.record vals, rest)

/-! ## Choice (`protopy/containers.py`)
`ChoiceBase.__new__` compiles a tag enumeration whose members are the
variant tags; the enum's backing coder is built by `EnumerationMeta` with
the default width 1 (no `__width__` is passed). `write` encodes the tag
(after the `self.tag_enum(self.tag)` membership conversion) then the
active variant's value; `read` decodes the tag (failing on a non-member)
and dispatches to the variant registered under it. -/

/-- The tag enumeration compiled for a Choice class. -/
def tagEnum (variants : List (Int × PCoder)) : EnumCoder :=
  { members := variants.map Prod.fst }

def choicePC (variants : List (Int × PCoder)) : PCoder where
  write v :=
    match v with
    | .choice t val =>
      -- `self.tag_enum(self.tag)` raises ValueError for a non-member
      if (variants.map Prod.fst).contains t then do
        let tagBytes ← (tagEnum variants).coder.encode t
        match variants.lookup t with
        | some vc => do
          let body ← vc.write val
          .ok (tagBytes ++ body)
        | none => .error "AttributeError: no variant registered under tag"
      else .error "ValueError: tag is not a member of the tag enumeration"
    | _ => .error "TypeError: not a choice"
  readF data := do
    let (tv, rest) ← (tagEnum variants).toPC.readF data
    match tv with
    | .int t =>
      match variants.lookup t with
      | some vc => do
        let (val, rest2) ← vc.readF rest
        .ok (.choice t val, rest2)
      | none => .error "AttributeError: no variant registered under tag"
    | _ => .error "TypeError: tag is not an integer"

/-! ## BitMaskedInteger (`protopy/containers.py`)
Named bit-fields over one backing unsigned integer. For each mask the
`BitMask` descriptor precomputes `shift`, the index of the lowest set bit
(`bin(mask)[2:][::-1].find("1")`, clamped to 0 for a zero mask). -/

/-- Fuel-indexed scan for the lowest set bit (the fuel only bounds the
recursion depth; `mask` itself always suffices). -/
def maskShiftGo : Nat → Nat → Nat
  | 0, _ => 0
  | fuel + 1, m =>
    if m = 0 then 0
    else if m % 2 = 1 then 0
    else 1 + maskShiftGo fuel (m / 2)

/-- `BitMask.__init__`: position of the lowest set bit of the mask
(`bin(mask)[2:][::-1].find("1")`), 0 for a zero mask. -/
def maskShift (mask : Nat) : Nat := maskShiftGo mask mask

/-- `BitMask.__get__`: `(instance._value & self.mask) >> self.shift`. -/
def bmGet (value mask : Nat) : Nat :=
  (value &&& mask) >>> maskShift mask

/-- `BitMask.__set__`: `instance._value |= (self.mask & (value << self.shift))`
(no clearing of previously set bits under the mask). -/
def bmSet (value mask newValue : Nat) : Nat :=
  value ||| (mask &&& (newValue <<< maskShift mask))

/-- `BitMaskedInteger.__init__`: start from a zeroed backing value and set
each recognized keyword field (unknown names are ignored). -/
def bmInit (masks : List (String × Nat)) (kwargs : List (String × Nat)) : Nat :=
  kwargs.foldl
    (fun acc kv =>
      match masks.lookup kv.1 with
      | some mask => bmSet acc mask kv.2
      | none => acc)
    0

/-! ## Record member ordering (`Member` in `protopy/containers.py`)
`RecordBase.__new__` collects the `Member` attributes into a dict (whose
iteration order is arbitrary under Python 2) and sorts the items by the
`Member` values; `Member.__lt__` compares by user-defined `order` when the
left side has one (falling back to `sys.maxint` on the right), puts members
without a user order after any member with one, and otherwise compares the
global declaration counters. -/

/-- CPython 2 `sys.maxint` on a 64-bit platform. -/
def sysMaxint : Int := 2 ^ 63 - 1

/-- A `Member(coder, order=None)` declaration: the optional user order and
the `creation_counter` captured at declaration time. -/
structure Member where
  order : Option Int := none
  creationCounter : Nat
  deriving DecidableEq, Repr

/-- `self._user_defined_order = order is not None`. -/
def Member.userDefinedOrder (m : Member) : Bool := m.order.isSome

/-- `self.order = order if order is not None else sys.maxint`. -/
def Member.orderValue (m : Member) : Int := m.order.getD sysMaxint

/-- `Member.__lt__`. -/
def memberLt (a b : Member) : Bool :=
  if a.userDefinedOrder then a.orderValue < b.orderValue
  else if b.userDefinedOrder then false
  else a.creationCounter < b.creationCounter

/-- `coder_items.sort(key=operator.itemgetter(1))`: a stable sort driven by
`Member.__lt__`, i.e. `x` goes before `y` exactly when `not (y < x)` allows
it; on the pairwise-comparable inputs the claims quantify over, every
correct stable sort (Python's Timsort included) produces this result. -/
def memberSort (l : List (String × Member)) : List (String × Member) :=
  List.insertionSort (fun a b => ¬ memberLt b.2 a.2) l

/-- The effective sort key `Member.__lt__` realizes when every user order
is below `sys.maxint`: user-ordered members by their order, unordered
members after them by declaration counter. -/
def memberKey (m : Member) : Int :=
  if m.userDefinedOrder then m.orderValue else sysMaxint + m.creationCounter

def memberKeyLe (a b : String × Member) : Prop :=
  memberKey a.2 ≤ memberKey b.2

instance : DecidableRel memberKeyLe := fun a b => by
  unfold memberKeyLe; infer_instance

instance : IsTotal (String × Member) memberKeyLe :=
  ⟨fun a b => Int.le_total (memberKey a.2) (memberKey b.2)⟩

instance : IsTrans (String × Member) memberKeyLe :=
  ⟨fun _ _ _ h1 h2 => le_trans h1 h2⟩

/-- On members whose user orders stay below `sys.maxint`, `Member.__lt__`
is exactly the strict order of `memberKey`. -/
theorem memberLt_iff_key (a b : Member)
    (ha : a.userDefinedOrder = true → a.orderValue < sysMaxint)
    (hb : b.userDefinedOrder = true → b.orderValue < sysMaxint) :
    memberLt a b = true ↔ memberKey a < memberKey b := by
  unfold memberLt memberKey
  cases hua : a.userDefinedOrder with
  | true =>
    have ha2 := ha hua
    cases hub : b.userDefinedOrder with
    | true => simp
    | false =>
      have hbv : b.orderValue = sysMaxint := by
        unfold Member.userDefinedOrder at hub
        unfold Member.orderValue
        cases hbo : b.order with
        | none => rfl
        | some x => rw [hbo] at hub; simp at hub
      rw [hbv]
      simp only [decide_eq_true_eq, if_true]
      constructor
      · intro _
        have : (0:Int) ≤ b.creationCounter := Int.ofNat_nonneg _
        omega
      · intro _
        omega
  | false =>
    cases hub : b.userDefinedOrder with
    | true =>
      have hb2 := hb hub
      simp only [Bool.false_eq_true, if_false, if_true]
      constructor
      · intro h; simp at h
      · intro h
        exfalso
        have : (0:Int) ≤ a.creationCounter := Int.ofNat_nonneg _
        omega
    | false =>
      simp only [Bool.false_eq_true, if_false, decide_eq_true_eq]
      omega

theorem orderedInsert_congr {α : Type} (r s : α → α → Prop)
    [DecidableRel r] [DecidableRel s] (x : α) (l : List α)
    (h : ∀ b ∈ l, (r x b ↔ s x b)) :
    List.orderedInsert r x l = List.orderedInsert s x l := by
  induction l with
  | nil => rfl
  | cons y ys ih =>
    simp only [List.orderedInsert]
    by_cases hr : r x y
    · rw [if_pos hr, if_pos ((h y (List.mem_cons_self y ys)).mp hr)]
    · rw [if_neg hr, if_neg (fun hs => hr ((h y (List.mem_cons_self y ys)).mpr hs)),
        ih (fun b hbmem => h b (List.mem_cons_of_mem y hbmem))]

theorem insertionSort_congr {α : Type} (r s : α → α → Prop)
    [DecidableRel r] [DecidableRel s] :
    ∀ l : List α, (∀ a ∈ l, ∀ b ∈ l, (r a b ↔ s a b)) →
      List.insertionSort r l = List.insertionSort s l := by
  intro l
  induction l with
  | nil => intro _; rfl
  | cons x xs ih =>
    intro h
    simp only [List.insertionSort]
    rw [ih (fun a hamem b hbmem =>
      h a (List.mem_cons_of_mem x hamem) b (List.mem_cons_of_mem x hbmem))]
    apply orderedInsert_congr
    intro b hbmem
    have hbxs : b ∈ xs := (List.perm_insertionSort s xs).subset hbmem
    exact h x (List.mem_cons_self x xs) b (List.mem_cons_of_mem x hbxs)

/-- Two key-sorted permutations of each other with pairwise-distinct keys
are equal (the resolved schema order is unique). -/
theorem sortedKey_perm_nodup_eq {α : Type} (f : α → Int) :
    ∀ {l₁ l₂ : List α}, l₁.Perm l₂ →
      l₁.Sorted (fun a b => f a ≤ f b) → l₂.Sorted (fun a b => f a ≤ f b) →
      (l₁.map f).Nodup → l₁ = l₂ := by
  intro l₁
  induction l₁ with
  | nil =>
    intro l₂ hp _ _ _
    exact (hp.symm.eq_nil).symm
  | cons a t₁ ih =>
    intro l₂ hp hs₁ hs₂ hnd
    cases l₂ with
    | nil => exact absurd hp.eq_nil (by simp)
    | cons b t₂ =>
      have hab : a ∈ b :: t₂ := hp.subset (List.mem_cons_self a t₁)
      have hba : b ∈ a :: t₁ := hp.symm.subset (List.mem_cons_self b t₂)
      have hfab : f a ≤ f b := by
        rcases List.mem_cons.mp hba with h | h
        · rw [h]
        · exact (List.sorted_cons.mp hs₁).1 b h
      have hfba : f b ≤ f a := by
        rcases List.mem_cons.mp hab with h | h
        · rw [h]
        · exact (List.sorted_cons.mp hs₂).1 a h
      have hfeq : f a = f b := le_antisymm hfab hfba
      have hnd₂ : ((b :: t₂).map f).Nodup := (hp.map f).nodup_iff.mp hnd
      have hae : a = b := by
        rcases List.mem_cons.mp hab with h | h
        · exact h
        · exfalso
          have hmem : f a ∈ t₂.map f := List.mem_map_of_mem f h
          rw [List.map_cons] at hnd₂
          exact (List.nodup_cons.mp hnd₂).1 (hfeq ▸ hmem)
      subst hae
      have hpt : t₁.Perm t₂ := hp.cons_inv
      rw [List.map_cons] at hnd
      rw [ih hpt (List.sorted_cons.mp hs₁).2 (List.sorted_cons.mp hs₂).2
        (List.nodup_cons.mp hnd).2]

/-- When all user orders are below `sys.maxint`, the source's
`Member.__lt__` sort is the `memberKey` sort. -/
theorem memberSort_eq_keySort (l : List (String × Member))
    (h : ∀ p ∈ l, p.2.userDefinedOrder = true → p.2.orderValue < sysMaxint) :
    memberSort l = List.insertionSort memberKeyLe l := by
  unfold memberSort
  apply insertionSort_congr
  intro a hamem b hbmem
  have hiff := memberLt_iff_key b.2 a.2 (h b hbmem) (h a hamem)
  unfold memberKeyLe
  constructor
  · intro hnot
    by_contra hgt
    exact hnot (hiff.mpr (by omega))
  · intro hle hlt
    have := hiff.mp hlt
    omega

theorem memberSort_perm (l : List (String × Member)) : (memberSort l).Perm l :=
  List.perm_insertionSort _ l

theorem memberSort_sorted_key (l : List (String × Member))
    (hmax : ∀ p ∈ l, p.2.userDefinedOrder = true → p.2.orderValue < sysMaxint) :
    (memberSort l).Sorted memberKeyLe := by
  rw [memberSort_eq_keySort l hmax]
  exact List.sorted_insertionSort memberKeyLe l

theorem memberSort_pairwise_key_lt (l : List (String × Member))
    (hmax : ∀ p ∈ l, p.2.userDefinedOrder = true → p.2.orderValue < sysMaxint)
    (hkeys : (l.map (fun p => memberKey p.2)).Nodup) :
    List.Pairwise (fun a b : String × Member => memberKey a.2 < memberKey b.2)
      (memberSort l) := by
  have hsorted := memberSort_sorted_key l hmax
  have hne : List.Pairwise (fun a b : String × Member => memberKey a.2 ≠ memberKey b.2) l :=
    List.pairwise_map.mp hkeys
  have hneSorted : List.Pairwise
      (fun a b : String × Member => memberKey a.2 ≠ memberKey b.2) (memberSort l) :=
    ((memberSort_perm l).pairwise_iff (fun h => h.symm)).mpr hne
  have hpw : List.Pairwise memberKeyLe (memberSort l) := hsorted
  exact (hpw.and hneSorted).imp (fun hab => lt_of_le_of_ne hab.1 hab.2)

/-- **C4.** For every Record schema, the effective member order produced by
`RecordBase.__new__` (sorting the collected `Member` declarations) is a
deterministic total order: the result is a permutation of the declarations,
it does not depend on the arbitrary dict iteration order the sort starts
from, every member declared with an explicit order precedes every member
declared without one, and members without an explicit order are ranked
among themselves by declaration sequence (their creation counters).
Hypotheses: explicit orders stay below `sys.maxint`, and no two
declarations resolve to the same effective position (pairwise-distinct
sort keys, the schema invariant). -/
theorem claim_C4 (l : List (String × Member))
    (hmax : ∀ p ∈ l, p.2.userDefinedOrder = true → p.2.orderValue < sysMaxint)
    (hkeys : (l.map (fun p => memberKey p.2)).Nodup) :
    (memberSort l).Perm l
    ∧ (∀ l₂, l₂.Perm l → memberSort l₂ = memberSort l)
    ∧ List.Pairwise (fun a b : String × Member =>
        b.2.userDefinedOrder = true → a.2.userDefinedOrder = true) (memberSort l)
    ∧ List.Pairwise (fun a b : String × Member =>
        a.2.userDefinedOrder = false → b.2.userDefinedOrder = false →
          a.2.creationCounter < b.2.creationCounter) (memberSort l) := by
  have hperm := memberSort_perm l
  have hstrict := memberSort_pairwise_key_lt l hmax hkeys
  refine ⟨hperm, ?_, ?_, ?_⟩
  · -- determinism across any starting arrangement
    intro l₂ hp
    have hmax₂ : ∀ p ∈ l₂, p.2.userDefinedOrder = true → p.2.orderValue < sysMaxint :=
      fun p hpm => hmax p (hp.subset hpm)
    rw [memberSort_eq_keySort l hmax, memberSort_eq_keySort l₂ hmax₂]
    apply sortedKey_perm_nodup_eq (fun p : String × Member => memberKey p.2)
    · exact (List.perm_insertionSort _ l₂).trans
        (hp.trans (List.perm_insertionSort _ l).symm)
    · exact List.sorted_insertionSort memberKeyLe l₂
    · exact List.sorted_insertionSort memberKeyLe l
    · have : ((List.insertionSort memberKeyLe l₂).map
          (fun p : String × Member => memberKey p.2)).Nodup := by
        refine (List.Perm.nodup_iff ?_).mpr hkeys
        exact ((List.perm_insertionSort _ l₂).trans hp).map _
      exact this
  · -- explicitly ordered members come first
    refine hstrict.imp_of_mem ?_
    intro a b hamem hbmem hlt hbuser
    by_contra hano
    have hauser : a.2.userDefinedOrder = false := by
      cases h : a.2.userDefinedOrder
      · rfl
      · exact absurd h hano
    have hbl : b ∈ l := hperm.subset hbmem
    have hbmax := hmax b hbl hbuser
    have hka : memberKey a.2 = sysMaxint + a.2.creationCounter := by
      unfold memberKey; rw [hauser]; simp
    have hkb : memberKey b.2 = b.2.orderValue := by
      unfold memberKey; rw [hbuser]; simp
    have hc : (0:Int) ≤ a.2.creationCounter := Int.ofNat_nonneg _
    omega
  · -- unordered members keep declaration order
    refine hstrict.imp_of_mem ?_
    intro a b _ _ hlt hauser hbuser
    have hka : memberKey a.2 = sysMaxint + a.2.creationCounter := by
      unfold memberKey; rw [hauser]; simp
    have hkb : memberKey b.2 = sysMaxint + b.2.creationCounter := by
      unfold memberKey; rw [hbuser]; simp
    omega

/-- Witness for C4 at a concrete schema: fields `x` (order 5, declared
first) and `y` (no order, declared second). -/
theorem claim_C4_witness :
    (memberSort [("x", ({ order := some 5, creationCounter := 0 } : Member)),
                 ("y", ({ order := none, creationCounter := 1 } : Member))]).Perm
      [("x", ({ order := some 5, creationCounter := 0 } : Member)),
       ("y", ({ order := none, creationCounter := 1 } : Member))]
    ∧ memberSort [("y", ({ order := none, creationCounter := 1 } : Member)),
                  ("x", ({ order := some 5, creationCounter := 0 } : Member))]
      = memberSort [("x", ({ order := some 5, creationCounter := 0 } : Member)),
                    ("y", ({ order := none, creationCounter := 1 } : Member))] := by
  have h := claim_C4
    [("x", ({ order := some 5, creationCounter := 0 } : Member)),
     ("y", ({ order := none, creationCounter := 1 } : Member))]
    (by decide) (by decide)
  exact ⟨h.1, h.2.1 _ (by decide)⟩

/-- **C5 counterexample.** The schema `{a: order=9, b: no order, c: no
order}` declared in source order `b, c, a` does NOT resolve to `b, c, a`:
`Member.__lt__` puts the explicitly ordered `a` (order 9 < sys.maxint)
before both unordered members. -/
theorem claim_C5_counterexample :
    (memberSort [("b", ({ order := none, creationCounter := 0 } : Member)),
                 ("c", ({ order := none, creationCounter := 1 } : Member)),
                 ("a", ({ order := some 9, creationCounter := 2 } : Member))]).map Prod.fst
      ≠ ["b", "c", "a"] := by
  decide

/-- **C5 (amended).** The schema `{a: order=9, b: no order, c: no order}`
declared as `b, c, a` resolves its effective encode/decode order to
`a, b, c`: the explicit order of `a` moves it ahead of the unordered
fields (explicitly ordered members always precede unordered ones, which
keep declaration order among themselves). -/
theorem claim_C5_amended :
    (memberSort [("b", ({ order := none, creationCounter := 0 } : Member)),
                 ("c", ({ order := none, creationCounter := 1 } : Member)),
                 ("a", ({ order := some 9, creationCounter := 2 } : Member))]).map Prod.fst
      = ["a", "b", "c"] := by
  decide

/-- The `BitMaskedInteger` class as a `PCoder`: `write_to`/`read_from`
delegate to the backing `UnsignedInteger(width=width)`. -/
def bitMaskedPC (width : Nat) : PCoder where
  write v :=
    match v with
    | .bits n => ({ signed := false, width := width } : IntCoder).encode (n : Int)
    | _ => .error "TypeError: not a bit-masked integer"
  readF data := do
    let (i, rest) ← ({ signed := false, width := width } : IntCoder).readFrom data
    .ok (.bits i.toNat, rest)

/-! ## Round-trip properties -/

@[simp] theorem ok_bind {α β : Type} (a : α) (f : α → Except String β) :
    (Except.ok a : Except String α) >>= f = f a := rfl

@[simp] theorem error_bind {α β : Type} (e : String) (f : α → Except String β) :
    (Except.error e : Except String α) >>= f = .error e := rfl

/-- Prefix round trip: encoding succeeds and decoding the encoding followed
by any trailing stream recovers the value and leaves the stream positioned
on the trailing data. -/
def PrefixRT (c : PCoder) (v : Value) : Prop :=
  ∃ bs, c.write v = .ok bs ∧ ∀ rest, c.readF (bs ++ rest) = .ok (v, rest)

/-- Whole-buffer round trip (`decode(encode(v)) == v` with nothing left):
what countless sequences achieve, which consume the entire stream. -/
def ExactRT (c : PCoder) (v : Value) : Prop :=
  ∃ bs, c.write v = .ok bs ∧ c.readF bs = .ok (v, [])

theorem PrefixRT.toExact {c : PCoder} {v : Value} (h : PrefixRT c v) :
    ExactRT c v := by
  obtain ⟨bs, h1, h2⟩ := h
  exact ⟨bs, h1, by simpa using h2 []⟩

/-- Fixed-width integers round trip on every value within the effective
bounds. -/
theorem intPC_roundtrip (c : IntCoder) (i : Int) (hw : 0 < c.width)
    (h : c.effMin ≤ i ∧ i ≤ c.effMax) : PrefixRT (intPC c) (.int i) := by
  obtain ⟨bs, henc, _, hread⟩ := c.roundtrip i hw h
  refine ⟨bs, ?_, ?_⟩
  · simpa [intPC] using henc
  · intro rest
    simp [intPC, hread rest]

/-- Boolean round trips on both values. -/
theorem boolPC_roundtrip (b : Bool) : PrefixRT boolPC (.bool b) := by
  cases b
  · exact ⟨[0], rfl, fun rest => rfl⟩
  · exact ⟨[1], rfl, fun rest => rfl⟩

/-- Enumerations round trip on every member value that fits the backing
width. -/
theorem enumPC_roundtrip (e : EnumCoder) (i : Int) (hw : 0 < e.width)
    (hmem : e.members.contains i = true)
    (hrange : 0 ≤ i ∧ i ≤ (2 ^ (8 * e.width) : Int) - 1) :
    PrefixRT e.toPC (.int i) := by
  have hbounds : e.coder.effMin ≤ i ∧ i ≤ e.coder.effMax := by
    have h1 : e.coder.effMin = 0 := rfl
    have h2 : e.coder.effMax = (2 ^ (8 * e.width) : Int) - 1 := by
      simp [EnumCoder.coder, IntCoder.effMax, IntCoder.natMax]
    omega
  obtain ⟨bs, henc, _, hread⟩ := e.coder.roundtrip i hw hbounds
  have hmem2 : i ∈ e.members := by simpa using hmem
  refine ⟨bs, ?_, ?_⟩
  · simp [EnumCoder.toPC, hmem, hmem2, henc]
  · intro rest
    simp [EnumCoder.toPC, hread rest, hmem, hmem2]

/-- Bit-packed integers round trip on every backing value that fits the
width. -/
theorem bitMaskedPC_roundtrip (w : Nat) (n : Nat) (hw : 0 < w)
    (hrange : (n : Int) ≤ (2 ^ (8 * w) : Int) - 1) :
    PrefixRT (bitMaskedPC w) (.bits n) := by
  have hbounds : ({ signed := false, width := w } : IntCoder).effMin ≤ (n : Int)
      ∧ (n : Int) ≤ ({ signed := false, width := w } : IntCoder).effMax := by
    constructor
    · exact Int.ofNat_nonneg n
    · simpa [IntCoder.effMax, IntCoder.natMax] using hrange
  obtain ⟨bs, henc, _, hread⟩ :=
    ({ signed := false, width := w } : IntCoder).roundtrip (n : Int) hw hbounds
  refine ⟨bs, ?_, ?_⟩
  · simpa [bitMaskedPC] using henc
  · intro rest
    simp [bitMaskedPC, hread rest]

/-- When a null terminator is present, no byte before it is null, and the
`max_length` cutoff is not reached first, the read loop returns the bytes
before the null and the stream after it. -/
theorem stringLoop_finds_null (maxLength : Option Int) :
    ∀ (codes rest acc : List Nat) (r fuel : Nat),
      (∀ ch ∈ codes, ch ≠ 0) →
      codes.length + 1 ≤ fuel →
      (∀ k : Nat, k ≤ codes.length → stringMaxHit (r + k) maxLength = false) →
      stringLoop maxLength fuel (codes ++ 0 :: rest) acc r
        = some (.ok (acc ++ codes, rest)) := by
  intro codes
  induction codes with
  | nil =>
    intro rest acc r fuel _ hfuel hmax
    obtain ⟨f, rfl⟩ : ∃ f, fuel = f + 1 := ⟨fuel - 1, by omega⟩
    have h0 := hmax 0 (by omega)
    rw [Nat.add_zero] at h0
    simp [stringLoop, h0]
  | cons ch codes ih =>
    intro rest acc r fuel hnn hfuel hmax
    obtain ⟨f, rfl⟩ : ∃ f, fuel = f + 1 := ⟨fuel - 1, by omega⟩
    have h0 := hmax 0 (by omega)
    rw [Nat.add_zero] at h0
    have hch : ch ≠ 0 := hnn ch (List.mem_cons_self ch codes)
    have hrec := ih rest (acc ++ [ch]) (r + 1) f
      (fun x hx => hnn x (List.mem_cons_of_mem ch hx))
      (by simpa using Nat.lt_of_succ_le hfuel)
      (fun k hk => by
        have := hmax (k + 1) (by simpa using Nat.succ_le_succ hk)
        rwa [show r + 1 + k = r + (k + 1) from by omega])
    simp only [List.cons_append, stringLoop, h0, if_false, hch, Bool.false_eq_true]
    rw [hrec]
    simp

/-- Strings round trip: ASCII, no embedded null, and total length within
`max_length` when one is set. -/
theorem stringPC_roundtrip (maxLength : Option Int) (codes : List Nat)
    (hascii : ∀ ch ∈ codes, ch < 128)
    (hnull : ∀ ch ∈ codes, ch ≠ 0)
    (hlen : stringTooLong ((codes.length : Int) + 1) maxLength = false) :
    PrefixRT (stringPC maxLength) (.str codes) := by
  have hany : codes.any (fun ch => 128 ≤ ch) = false := by
    rw [List.any_eq_false]
    intro ch hch
    simpa using Nat.not_le.mpr (hascii ch hch)
  have hcont : codes.contains 0 = false := by
    cases h : codes.contains 0
    · rfl
    · exact absurd rfl (hnull 0 (by simpa using h))
  have hex : ¬ ∃ x ∈ codes, 128 ≤ x := by
    rintro ⟨x, hx, hge⟩
    exact absurd hge (Nat.not_le.mpr (hascii x hx))
  have h0m : (0 : Nat) ∉ codes := fun hm => hnull 0 hm rfl
  refine ⟨codes ++ [0], ?_, ?_⟩
  · simp [stringPC, hany, hcont, hlen, hex, h0m]
  · intro rest
    have harr : codes ++ [0] ++ rest = codes ++ 0 :: rest := by simp
    have hmaxok : ∀ k : Nat, k ≤ codes.length →
        stringMaxHit k maxLength = false := by
      intro k hk
      cases maxLength with
      | none => rfl
      | some m =>
        unfold stringTooLong at hlen
        unfold stringMaxHit
        simp only [decide_eq_false_iff_not, Int.not_le] at hlen ⊢
        simp only [gt_iff_lt, Int.not_lt, decide_eq_false_iff_not] at hlen
        omega
    have hloop := stringLoop_finds_null maxLength codes rest [] 0
      (stringFuel maxLength (codes ++ 0 :: rest))
      hnull
      (by unfold stringFuel; simp; omega)
      (fun k hk => by simpa using hmaxok k hk)
    simp only [stringPC, harr, hloop]
    simp [hany]

theorem writeElements_roundtrip (elem : PCoder) :
    ∀ xs : List Value, (∀ x ∈ xs, PrefixRT elem x) →
      ∃ bs, writeElements elem xs = .ok bs ∧
        ∀ rest, readElements elem xs.length (bs ++ rest) = .ok (xs, rest) := by
  intro xs
  induction xs with
  | nil => exact fun _ => ⟨[], rfl, fun rest => by simp [readElements]⟩
  | cons x xs ih =>
    intro h
    obtain ⟨bx, hwx, hrx⟩ := h x (List.mem_cons_self x xs)
    obtain ⟨bxs, hwxs, hrxs⟩ := ih (fun y hy => h y (List.mem_cons_of_mem x hy))
    refine ⟨bx ++ bxs, ?_, ?_⟩
    · simp [writeElements, hwx, hwxs]
    · intro rest
      have harr : bx ++ bxs ++ rest = bx ++ (bxs ++ rest) := by simp
      simp [readElements, harr, hrx (bxs ++ rest), hrxs rest]

/-- The countless loop re-reads exactly the elements that were written,
provided every element encoding is nonempty (so the data does not run out
before the trailing elements) and the budget covers the element count. -/
theorem readCountless_roundtrip (elem : PCoder) :
    ∀ (xs : List Value) (k : Nat), xs.length ≤ k →
      (∀ x ∈ xs, PrefixRT elem x) →
      (∀ x ∈ xs, ∀ bs, elem.write x = .ok bs → bs ≠ []) →
      ∀ ws, writeElements elem xs = .ok ws →
        readCountless elem k ws = .ok xs := by
  intro xs
  induction xs with
  | nil =>
    intro k _ _ _ ws hws
    have : ws = [] := by
      simp only [writeElements] at hws
      exact (Except.ok.injEq _ _).mp hws.symm
    subst this
    cases k <;> rfl
  | cons x xs ih =>
    intro k hk h hne ws hws
    obtain ⟨bx, hwx, hrx⟩ := h x (List.mem_cons_self x xs)
    simp only [writeElements, hwx, ok_bind] at hws
    rcases hbw : writeElements elem xs with e | bw
    · rw [hbw] at hws; simp at hws
    · rw [hbw] at hws
      simp only [ok_bind, Except.ok.injEq] at hws
      subst hws
      have hbx : bx ≠ [] := hne x (List.mem_cons_self x xs) bx hwx
      obtain ⟨k2, rfl⟩ : ∃ k2, k = k2 + 1 := ⟨k - 1, by simp at hk; omega⟩
      cases bx with
      | nil => exact absurd rfl hbx
      | cons c cs =>
        have harr : (c :: cs) ++ bw = c :: (cs ++ bw) := rfl
        have hread : elem.readF (c :: (cs ++ bw)) = .ok (x, bw) := by
          rw [← harr]; exact hrx bw
        have hrec : readCountless elem k2 bw = .ok xs :=
          ih k2 (by simp at hk; omega)
            (fun y hy => h y (List.mem_cons_of_mem x hy))
            (fun y hy => hne y (List.mem_cons_of_mem x hy)) bw hbw
        simp [readCountless, hread, hrec]

/-- The countless loop never returns more elements than its budget. -/
theorem readCountless_length_le (elem : PCoder) :
    ∀ (k : Nat) (data : List Nat) (xs : List Value),
      readCountless elem k data = .ok xs → xs.length ≤ k := by
  intro k
  induction k with
  | zero =>
    intro data xs h
    cases data <;> simp only [readCountless, Except.ok.injEq] at h <;> simp [← h]
  | succ k ih =>
    intro data xs h
    cases data with
    | nil =>
      simp only [readCountless, Except.ok.injEq] at h
      simp [← h]
    | cons b rest =>
      simp only [readCountless] at h
      rcases hre : elem.readF (b :: rest) with e | p
      · rw [hre] at h; simp at h
      · rw [hre] at h
        simp only [ok_bind] at h
        rcases hrc : readCountless elem k p.2 with e2 | xs2
        · rw [hrc] at h; simp at h
        · rw [hrc] at h
          simp only [ok_bind, Except.ok.injEq] at h
          have := ih p.2 xs2 hrc
          simp [← h]
          omega

/-- Counted (length-prefixed) sequences round trip: the element count is
within the declared bounds and within the length coder's effective bounds,
and every element round trips. -/
theorem sequencePC_roundtrip_counted (elem : PCoder) (cfg : SeqCfg) (xs : List Value)
    (hincl : cfg.includeLength = true)
    (hval : cfg.minLength ≤ (xs.length : Int) ∧ pyLeNatOpt xs.length cfg.maxLength = true)
    (hwidth : 0 < (lengthCoderFor cfg).width)
    (hlb : (lengthCoderFor cfg).effMin ≤ (xs.length : Int)
      ∧ (xs.length : Int) ≤ (lengthCoderFor cfg).effMax)
    (helems : ∀ x ∈ xs, PrefixRT elem x) :
    PrefixRT (sequencePC elem cfg) (.list xs) := by
  obtain ⟨lb, hlenc, _, hlread⟩ := (lengthCoderFor cfg).roundtrip xs.length hwidth hlb
  obtain ⟨body, hw, hr⟩ := writeElements_roundtrip elem xs helems
  have hv : seqValidate cfg xs.length = .ok () := by
    simp [seqValidate, hval.1, hval.2]
  refine ⟨lb ++ body, ?_, ?_⟩
  · simp [sequencePC, hv, hincl, hlenc, hw]
  · intro rest
    have harr : lb ++ body ++ rest = lb ++ (body ++ rest) := by simp
    simp [sequencePC, hincl, harr, hlread (body ++ rest), hr rest, hv]

/-- Countless (length-less) sequences round trip on the exact buffer: the
count is within bounds and every element round trips with a nonempty
encoding. -/
theorem sequencePC_roundtrip_countless (elem : PCoder) (cfg : SeqCfg) (xs : List Value)
    (hincl : cfg.includeLength = false)
    (hval : cfg.minLength ≤ (xs.length : Int) ∧ pyLeNatOpt xs.length cfg.maxLength = true)
    (helems : ∀ x ∈ xs, PrefixRT elem x)
    (hne : ∀ x ∈ xs, ∀ bs, elem.write x = .ok bs → bs ≠ []) :
    ExactRT (sequencePC elem cfg) (.list xs) := by
  obtain ⟨body, hw, _⟩ := writeElements_roundtrip elem xs helems
  have hv : seqValidate cfg xs.length = .ok () := by
    simp [seqValidate, hval.1, hval.2]
  have hbudget : xs.length ≤ countlessBudget cfg.maxLength := by
    have h2 := hval.2
    cases hm : cfg.maxLength with
    | none => rw [hm] at h2; simp [pyLeNatOpt] at h2
    | some m =>
      rw [hm] at h2
      simp only [pyLeNatOpt, decide_eq_true_eq] at h2
      simp only [countlessBudget]
      omega
  have hrc := readCountless_roundtrip elem xs (countlessBudget cfg.maxLength)
    hbudget helems hne body hw
  refine ⟨body, ?_, ?_⟩
  · simp [sequencePC, hv, hincl, hw]
  · simp [sequencePC, hincl, hrc, hv]

/-- All the record's member coders round trip on the record's member
values (names aligned with the schema) implies the record round trips. -/
theorem membersWrite_roundtrip :
    ∀ (ms : List (String × PCoder)) (vals : List (String × Value)),
      List.Forall₂ (fun (m : String × PCoder) (kv : String × Value) =>
        kv.1 = m.1 ∧ PrefixRT m.2 kv.2) ms vals →
      ∃ bs, writeMembers ms vals = .ok bs ∧
        ∀ rest, readMembers ms (bs ++ rest) = .ok (vals, rest) := by
  intro ms vals h
  induction h with
  | nil => exact ⟨[], rfl, fun rest => by simp [readMembers]⟩
  | @cons m kv ms2 vals2 hhead _ ih =>
    obtain ⟨hname, hprt⟩ := hhead
    obtain ⟨bx, hwx, hrx⟩ := hprt
    obtain ⟨bs2, hw2, hr2⟩ := ih
    obtain ⟨mn, mc⟩ := m
    obtain ⟨kn, kv2⟩ := kv
    simp only at hname
    subst hname
    dsimp only at hwx hrx
    refine ⟨bx ++ bs2, ?_, ?_⟩
    · simp [writeMembers, hwx, hw2]
    · intro rest
      have harr : bx ++ bs2 ++ rest = bx ++ (bs2 ++ rest) := by simp
      simp [readMembers, harr, hrx (bs2 ++ rest), hr2 rest]

theorem recordPC_roundtrip (ms : List (String × PCoder)) (vals : List (String × Value))
    (h : List.Forall₂ (fun (m : String × PCoder) (kv : String × Value) =>
      kv.1 = m.1 ∧ PrefixRT m.2 kv.2) ms vals) :
    PrefixRT (recordPC ms) (.record vals) := by
  obtain ⟨bs, hw, hr⟩ := membersWrite_roundtrip ms vals h
  refine ⟨bs, ?_, ?_⟩
  · simpa [recordPC] using hw
  · intro rest
    simp [recordPC, hr rest]

theorem lookup_mem {vs : List (Int × PCoder)} {t : Int} {vc : PCoder}
    (h : vs.lookup t = some vc) : (t, vc) ∈ vs := by
  induction vs with
  | nil => simp [List.lookup] at h
  | cons p ps ih =>
    rw [List.lookup] at h
    by_cases he : t = p.1
    · have hb : (t == p.1) = true := by simpa using he
      rw [hb] at h
      simp only [Option.some.injEq] at h
      subst h
      subst he
      exact List.mem_cons_self _ _
    · have hb : (t == p.1) = false := by simpa using he
      rw [hb] at h
      exact List.mem_cons_of_mem p (ih h)

theorem lookup_contains {vs : List (Int × PCoder)} {t : Int} {vc : PCoder}
    (h : vs.lookup t = some vc) : (vs.map Prod.fst).contains t = true := by
  induction vs with
  | nil => simp [List.lookup] at h
  | cons p ps ih =>
    rw [List.lookup] at h
    by_cases he : t = p.1
    · simp [he]
    · have : (t == p.1) = false := by simpa using he
      rw [this] at h
      simp only [List.map_cons, List.contains_cons]
      rw [ih h]
      simp

/-- Choices round trip: the tag is registered (and fits the 1-byte tag
coder the framework always builds), and the active variant's coder round
trips on the held value. -/
theorem choicePC_roundtrip (variants : List (Int × PCoder)) (t : Int) (v : Value)
    (vc : PCoder)
    (hlook : variants.lookup t = some vc)
    (htag : 0 ≤ t ∧ t ≤ 255)
    (hrt : PrefixRT vc v) :
    PrefixRT (choicePC variants) (.choice t v) := by
  have hcont : ((tagEnum variants).members).contains t = true := by
    simpa [tagEnum] using lookup_contains hlook
  have hbounds : (tagEnum variants).coder.effMin ≤ t
      ∧ t ≤ (tagEnum variants).coder.effMax := by
    have h2 : (tagEnum variants).coder.effMax = (2 ^ (8 * 1) : Int) - 1 := by
      simp [tagEnum, EnumCoder.coder, IntCoder.effMax, IntCoder.natMax]
    have h1 : (tagEnum variants).coder.effMin = 0 := rfl
    rw [h1, h2]
    omega
  obtain ⟨tagBytes, henc, _, hread⟩ :=
    (tagEnum variants).coder.roundtrip t (by simp [tagEnum, EnumCoder.coder]) hbounds
  obtain ⟨body, hwv, hrv⟩ := hrt
  have hmem2 : t ∈ (tagEnum variants).members := by simpa using hcont
  have hcont2 : (variants.map Prod.fst).contains t = true := lookup_contains hlook
  refine ⟨tagBytes ++ body, ?_, ?_⟩
  · simp [choicePC, hmem2, hcont2, henc, hwv, hlook]
    exact ⟨vc, lookup_mem hlook⟩
  · intro rest
    have harr : tagBytes ++ body ++ rest = tagBytes ++ (body ++ rest) := by simp
    simp [choicePC, EnumCoder.toPC, harr, hread (body ++ rest), hmem2, hlook,
      hrv rest]

theorem IntCoder.encode_ok_bounds {c : IntCoder} {v : Int} {bs : List Nat}
    (h : c.encode v = .ok bs) : c.effMin ≤ v ∧ v ≤ c.effMax := by
  unfold IntCoder.encode IntCoder.validate at h
  by_cases hb : c.effMin ≤ v ∧ v ≤ c.effMax
  · exact hb
  · rw [if_neg hb] at h
    simp at h

theorem IntCoder.encode_error_of_out {c : IntCoder} {v : Int}
    (h : ¬ (c.effMin ≤ v ∧ v ≤ c.effMax)) :
    c.encode v = .error "value is out of [min, max]" := by
  unfold IntCoder.encode IntCoder.validate
  rw [if_neg h]
  rfl

/-- **C2.** For every fixed-width integer coder: the effective bounds are
the intersection of the natural range with the user bounds (a user bound
beyond the natural range in its own direction is ignored, so
`min = max(natural_min, user_min)` and `max = min(natural_max, user_max)`,
and a value validates exactly when it lies in both ranges); `encode`
raises a validation error for every value outside `[min, max]` and
succeeds for `min` and `max` themselves (when the bounds are coherent);
and `read` consumes exactly `width` bytes — failing with a premature-end
error when fewer are available — then validates the decoded integer,
failing when it is outside `[min, max]`. -/
theorem claim_C2 (c : IntCoder) (hw : 0 < c.width) :
    (c.effMin = max c.natMin (c.minValue.getD c.natMin)
      ∧ c.effMax = min c.natMax (c.maxValue.getD c.natMax)
      ∧ ∀ v : Int, c.validate v = .ok () ↔
          ((c.natMin ≤ v ∧ v ≤ c.natMax)
            ∧ (∀ m, c.minValue = some m → m ≤ v)
            ∧ (∀ m, c.maxValue = some m → v ≤ m)))
    ∧ (∀ v : Int, ¬ (c.effMin ≤ v ∧ v ≤ c.effMax) →
        c.encode v = .error "value is out of [min, max]")
    ∧ (c.effMin ≤ c.effMax →
        (∃ bs, c.encode c.effMin = .ok bs) ∧ (∃ bs, c.encode c.effMax = .ok bs))
    ∧ (∀ data : List Nat, data.length < c.width →
        c.readFrom data = .error "Cannot decode - reached end of data")
    ∧ (∀ data : List Nat, c.width ≤ data.length →
        (¬ (c.effMin ≤ c.decodeFunc (data.take c.width)
            ∧ c.decodeFunc (data.take c.width) ≤ c.effMax) →
          c.readFrom data = .error "value is out of [min, max]")
        ∧ (c.effMin ≤ c.decodeFunc (data.take c.width)
            ∧ c.decodeFunc (data.take c.width) ≤ c.effMax →
          c.readFrom data = .ok (c.decodeFunc (data.take c.width), data.drop c.width))) := by
  have hminmax : c.effMin = max c.natMin (c.minValue.getD c.natMin) := by
    unfold IntCoder.effMin
    cases c.minValue with
    | none => simp
    | some m => simp only [Option.getD_some]; split <;> omega
  have hmaxmin : c.effMax = min c.natMax (c.maxValue.getD c.natMax) := by
    unfold IntCoder.effMax
    cases c.maxValue with
    | none => simp
    | some m => simp only [Option.getD_some]; split <;> omega
  refine ⟨⟨hminmax, hmaxmin, ?_⟩, ?_, ?_, ?_, ?_⟩
  · intro v
    unfold IntCoder.validate
    constructor
    · intro h
      by_cases hb : c.effMin ≤ v ∧ v ≤ c.effMax
      · refine ⟨⟨?_, ?_⟩, ?_, ?_⟩
        · have := c.effMin_ge_natMin; omega
        · have := c.effMax_le_natMax; omega
        · intro m hm
          rw [hm] at hminmax
          simp at hminmax
          omega
        · intro m hm
          rw [hm] at hmaxmin
          simp at hmaxmin
          omega
      · rw [if_neg hb] at h; simp at h
    · intro ⟨⟨h1, h2⟩, h3, h4⟩
      have hlo : c.effMin ≤ v := by
        rw [hminmax]
        cases hm : c.minValue with
        | none => simp; omega
        | some m => have := h3 m hm; simp; omega
      have hhi : v ≤ c.effMax := by
        rw [hmaxmin]
        cases hm : c.maxValue with
        | none => simp; omega
        | some m => have := h4 m hm; simp; omega
      rw [if_pos ⟨hlo, hhi⟩]
  · exact fun v h => IntCoder.encode_error_of_out h
  · intro hle
    constructor
    · obtain ⟨bs, h, _, _⟩ := c.roundtrip c.effMin hw ⟨le_refl _, hle⟩
      exact ⟨bs, h⟩
    · obtain ⟨bs, h, _, _⟩ := c.roundtrip c.effMax hw ⟨hle, le_refl _⟩
      exact ⟨bs, h⟩
  · intro data hlen
    unfold IntCoder.readFrom
    rw [if_pos]
    rw [List.length_take]
    omega
  · intro data hlen
    have htake : (data.take c.width).length = c.width := by
      rw [List.length_take]; omega
    have htt : ((data.take c.width).take c.width) = data.take c.width := by
      apply List.take_of_length_le; omega
    constructor
    · intro hout
      unfold IntCoder.readFrom
      rw [if_neg (by omega)]
      unfold IntCoder.decode
      rw [htt, htake]
      simp only [ne_eq, not_true_eq_false, if_false]
      unfold IntCoder.validate
      rw [if_neg hout]
      rfl
    · intro hin
      unfold IntCoder.readFrom
      rw [if_neg (by omega)]
      unfold IntCoder.decode
      rw [htt, htake]
      simp only [ne_eq, not_true_eq_false, if_false]
      unfold IntCoder.validate
      rw [if_pos hin]
      rfl

/-- Witness for C2 at `UnsignedInteger(width=1, min_value=2, max_value=300)`
(the user max 300 is beyond the natural range and is ignored). -/
theorem claim_C2_witness :
    ({ signed := false, width := 1, minValue := some 2,
       maxValue := some 300 } : IntCoder).effMin = 2
    ∧ ({ signed := false, width := 1, minValue := some 2,
         maxValue := some 300 } : IntCoder).effMax = 255
    ∧ ({ signed := false, width := 1, minValue := some 2,
         maxValue := some 300 } : IntCoder).encode 1
        = .error "value is out of [min, max]"
    ∧ ({ signed := false, width := 1, minValue := some 2,
         maxValue := some 300 } : IntCoder).readFrom []
        = .error "Cannot decode - reached end of data" := by
  have h := claim_C2
    ({ signed := false, width := 1, minValue := some 2, maxValue := some 300 } : IntCoder)
    (by decide)
  refine ⟨?_, ?_, ?_, ?_⟩
  · rw [h.1.1]; decide
  · rw [h.1.2.1]; decide
  · exact h.2.1 1 (by decide)
  · exact h.2.2.2.1 [] (by decide)

/-- **C3.** For every Choice type (with a registered tag fitting the
1-byte tag coder and a variant coder that round-trips the held value):
`write` emits the encoded discriminant tag first, then the active
variant's own encoding; `read` decodes the tag, dispatches to the variant
coder registered under it, and returns a Choice with the same tag and a
structurally equal value; and reading data whose tag position decodes to a
tag not registered for any variant fails. -/
theorem claim_C3 (variants : List (Int × PCoder)) (t : Int) (v : Value) (vc : PCoder)
    (hlook : variants.lookup t = some vc)
    (htag : 0 ≤ t ∧ t ≤ 255)
    (hrt : PrefixRT vc v) :
    (∃ tagBytes body,
      (tagEnum variants).coder.encode t = .ok tagBytes
      ∧ vc.write v = .ok body
      ∧ (choicePC variants).write (.choice t v) = .ok (tagBytes ++ body)
      ∧ ∀ rest, (choicePC variants).readF (tagBytes ++ body ++ rest)
          = .ok (.choice t v, rest))
    ∧ (∀ t2 : Int, (variants.map Prod.fst).contains t2 = false →
        ∀ bs rest, (tagEnum variants).coder.encode t2 = .ok bs →
          (choicePC variants).readF (bs ++ rest)
            = .error "ValueError: decoded value is not a member of the enumeration") := by
  constructor
  · have hcont : ((tagEnum variants).members).contains t = true := by
      simpa [tagEnum] using lookup_contains hlook
    have hbounds : (tagEnum variants).coder.effMin ≤ t
        ∧ t ≤ (tagEnum variants).coder.effMax := by
      have h2 : (tagEnum variants).coder.effMax = (2 ^ (8 * 1) : Int) - 1 := by
        simp [tagEnum, EnumCoder.coder, IntCoder.effMax, IntCoder.natMax]
      have h1 : (tagEnum variants).coder.effMin = 0 := rfl
      rw [h1, h2]
      omega
    obtain ⟨tagBytes, henc, _, hread⟩ :=
      (tagEnum variants).coder.roundtrip t (by simp [tagEnum, EnumCoder.coder]) hbounds
    obtain ⟨body, hwv, hrv⟩ := hrt
    have hmem2 : t ∈ (tagEnum variants).members := by simpa using hcont
    have hcont2 : (variants.map Prod.fst).contains t = true := lookup_contains hlook
    refine ⟨tagBytes, body, henc, hwv, ?_, ?_⟩
    · simp [choicePC, hmem2, hcont2, henc, hwv, hlook]
      exact ⟨vc, lookup_mem hlook⟩
    · intro rest
      have harr : tagBytes ++ body ++ rest = tagBytes ++ (body ++ rest) := by simp
      simp [choicePC, EnumCoder.toPC, harr, hread (body ++ rest), hmem2, hlook,
        hrv rest]
  · intro t2 hnc bs rest henc2
    have hb2 := IntCoder.encode_ok_bounds henc2
    obtain ⟨bs2, henc2b, _, hread2⟩ :=
      (tagEnum variants).coder.roundtrip t2 (by simp [tagEnum, EnumCoder.coder]) hb2
    have hbe : bs2 = bs := by
      rw [henc2] at henc2b
      exact ((Except.ok.injEq _ _).mp henc2b).symm
    subst hbe
    have hnm : t2 ∉ (tagEnum variants).members := by
      intro hmem
      have : ((tagEnum variants).members).contains t2 = true := by
        simpa using hmem
      simp only [tagEnum] at this
      rw [hnc] at this
      exact Bool.false_ne_true this
    simp [choicePC, EnumCoder.toPC, hread2 rest, hnm]

/-- Witness for C3 at a concrete 1-variant Choice holding a Boolean. -/
theorem claim_C3_witness :
    (choicePC [(7, boolPC)]).write (.choice 7 (.bool true)) = .ok [7, 1]
    ∧ (choicePC [(7, boolPC)]).readF [7, 1] = .ok (.choice 7 (.bool true), [])
    ∧ (choicePC [(7, boolPC)]).readF [9, 1]
        = .error "ValueError: decoded value is not a member of the enumeration" := by
  have h := claim_C3 [(7, boolPC)] 7 (.bool true) boolPC rfl (by decide)
    (boolPC_roundtrip true)
  obtain ⟨⟨tagBytes, body, henc, hbody, hw, hr⟩, hbad⟩ := h
  have htb : tagBytes = [7] := by
    have : (tagEnum [(7, boolPC)]).coder.encode 7 = .ok [7] := by rfl
    rw [this] at henc
    exact ((Except.ok.injEq _ _).mp henc).symm
  have hbd : body = [1] := by
    have : boolPC.write (.bool true) = .ok [1] := rfl
    rw [this] at hbody
    exact ((Except.ok.injEq _ _).mp hbody).symm
  subst htb hbd
  refine ⟨hw, by simpa using hr [], ?_⟩
  have := hbad 9 rfl [9] [1] (by rfl)
  simpa using this

/-- **C1 counterexample.** The round-trip claim fails as universally
stated: a length-less (countless) `Sequence` whose element coder can emit
zero bytes — here a `Record` with no members, as the repository's own
`Reset(Record)` — does not round trip. The coder is constructible, the
two-element list is within bounds `[0, 5]`, encoding succeeds (to zero
bytes), decoding succeeds, but returns the empty list. -/
theorem claim_C1_counterexample :
    sequenceInit (recordPC []) { maxLength := some 5 }
      = .ok (sequencePC (recordPC []) { maxLength := some 5 })
    ∧ (sequencePC (recordPC []) { maxLength := some 5 }).write
        (.list [.record [], .record []]) = .ok []
    ∧ (sequencePC (recordPC []) { maxLength := some 5 }).readF []
        = .ok (.list [], [])
    ∧ (Value.list [] ≠ Value.list [.record [], .record []]) := by
  refine ⟨rfl, rfl, rfl, ?_⟩
  intro h
  simp at h

/-- **C1 (amended).** Round trip for every supported coder on every value
within its effective bounds, under the well-formedness each wire format
needs: positive width for the fixed-width coders, enum members and Choice
tags within their backing coder's range (the tag coder is always 1 byte
wide), the element count of a sequence within the length coder's
effective bounds when a length prefix is emitted, and — for length-less
(countless) sequences — element encodings that are never empty. Composite
coders round trip whenever their member/variant/element coders do. -/
theorem claim_C1_amended :
    (∀ (c : IntCoder) (i : Int), 0 < c.width →
      c.effMin ≤ i ∧ i ≤ c.effMax → ExactRT (intPC c) (.int i))
    ∧ (∀ b : Bool, ExactRT boolPC (.bool b))
    ∧ (∀ (e : EnumCoder) (i : Int), 0 < e.width →
        e.members.contains i = true →
        0 ≤ i ∧ i ≤ (2 ^ (8 * e.width) : Int) - 1 → ExactRT e.toPC (.int i))
    ∧ (∀ (maxLength : Option Int) (codes : List Nat),
        (∀ ch ∈ codes, ch < 128) → (∀ ch ∈ codes, ch ≠ 0) →
        stringTooLong ((codes.length : Int) + 1) maxLength = false →
        ExactRT (stringPC maxLength) (.str codes))
    ∧ (∀ (ms : List (String × PCoder)) (vals : List (String × Value)),
        List.Forall₂ (fun (m : String × PCoder) (kv : String × Value) =>
          kv.1 = m.1 ∧ PrefixRT m.2 kv.2) ms vals →
        ExactRT (recordPC ms) (.record vals))
    ∧ (∀ (variants : List (Int × PCoder)) (t : Int) (v : Value) (vc : PCoder),
        variants.lookup t = some vc → 0 ≤ t ∧ t ≤ 255 → PrefixRT vc v →
        ExactRT (choicePC variants) (.choice t v))
    ∧ (∀ (elem : PCoder) (cfg : SeqCfg) (xs : List Value),
        cfg.includeLength = true →
        cfg.minLength ≤ (xs.length : Int) ∧ pyLeNatOpt xs.length cfg.maxLength = true →
        0 < (lengthCoderFor cfg).width →
        (lengthCoderFor cfg).effMin ≤ (xs.length : Int)
          ∧ (xs.length : Int) ≤ (lengthCoderFor cfg).effMax →
        (∀ x ∈ xs, PrefixRT elem x) →
        ExactRT (sequencePC elem cfg) (.list xs))
    ∧ (∀ (elem : PCoder) (cfg : SeqCfg) (xs : List Value),
        cfg.includeLength = false →
        cfg.minLength ≤ (xs.length : Int) ∧ pyLeNatOpt xs.length cfg.maxLength = true →
        (∀ x ∈ xs, PrefixRT elem x) →
        (∀ x ∈ xs, ∀ bs, elem.write x = .ok bs → bs ≠ []) →
        ExactRT (sequencePC elem cfg) (.list xs))
    ∧ (∀ (w n : Nat), 0 < w → (n : Int) ≤ (2 ^ (8 * w) : Int) - 1 →
        ExactRT (bitMaskedPC w) (.bits n)) := by
  refine ⟨?_, ?_, ?_, ?_, ?_, ?_, ?_, ?_, ?_⟩
  · exact fun c i hw h => (intPC_roundtrip c i hw h).toExact
  · exact fun b => (boolPC_roundtrip b).toExact
  · exact fun e i hw hm hr => (enumPC_roundtrip e i hw hm hr).toExact
  · exact fun ml codes h1 h2 h3 => (stringPC_roundtrip ml codes h1 h2 h3).toExact
  · exact fun ms vals h => (recordPC_roundtrip ms vals h).toExact
  · exact fun variants t v vc hl ht hr =>
      (choicePC_roundtrip variants t v vc hl ht hr).toExact
  · exact fun elem cfg xs h1 h2 h3 h4 h5 =>
      (sequencePC_roundtrip_counted elem cfg xs h1 h2 h3 h4 h5).toExact
  · exact fun elem cfg xs h1 h2 h3 h4 =>
      sequencePC_roundtrip_countless elem cfg xs h1 h2 h3 h4
  · exact fun w n hw hr => (bitMaskedPC_roundtrip w n hw hr).toExact

/-- Witness for C1 at concrete coders: a 2-byte big-endian unsigned value,
a Boolean, and a record of the two (the repository's `GetStatus` shape),
plus a length-prefixed sequence of booleans. -/
theorem claim_C1_witness :
    ExactRT (intPC { signed := false, width := 2 }) (.int 0x1234)
    ∧ ExactRT boolPC (.bool true)
    ∧ ExactRT (recordPC [("is_active", boolPC),
        ("uptime", intPC { signed := false, width := 2 })])
        (.record [("is_active", .bool true), ("uptime", .int 7)])
    ∧ ExactRT (sequencePC boolPC
        { maxLength := some 3, includeLength := true, lengthWidth := none })
        (.list [.bool true, .bool false]) := by
  have h := claim_C1_amended
  refine ⟨h.1 _ _ (by decide) (by decide), h.2.1 true, ?_, ?_⟩
  · refine h.2.2.2.2.1 _ _ ?_
    refine List.Forall₂.cons ⟨rfl, boolPC_roundtrip true⟩ ?_
    refine List.Forall₂.cons ⟨rfl, intPC_roundtrip _ 7 (by decide) (by decide)⟩ ?_
    exact List.Forall₂.nil
  · refine h.2.2.2.2.2.2.1 boolPC
      { maxLength := some 3, includeLength := true, lengthWidth := none }
      [.bool true, .bool false] rfl (by decide) (by decide) (by decide) ?_
    intro x hx
    simp only [List.mem_cons, List.not_mem_nil, or_false] at hx
    rcases hx with rfl | rfl
    · exact boolPC_roundtrip true
    · exact boolPC_roundtrip false

/-- **C6.** For every Sequence coder with a declared maximum: `write` fails
for a list shorter than `min_length` or longer than `max_length`, and
decoding a length-less (countless) sequence never returns more than
`max_length` elements no matter how much decodable data remains. -/
theorem claim_C6 (elem : PCoder) (cfg : SeqCfg) (M : Int)
    (hmax : cfg.maxLength = some M) :
    (∀ xs : List Value,
      ((xs.length : Int) < cfg.minLength ∨ M < (xs.length : Int)) →
      (sequencePC elem cfg).write (.list xs)
        = .error "Number of elements is not in [min, max]")
    ∧ (cfg.includeLength = false →
        ∀ (data : List Nat) (vs : List Value) (rest : List Nat),
          (sequencePC elem cfg).readF data = .ok (.list vs, rest) →
          vs.length ≤ M.toNat) := by
  constructor
  · intro xs hout
    have hv : seqValidate cfg xs.length
        = .error "Number of elements is not in [min, max]" := by
      unfold seqValidate
      rw [if_neg]
      rintro ⟨h1, h2⟩
      rw [hmax] at h2
      simp only [pyLeNatOpt, decide_eq_true_eq] at h2
      omega
    simp [sequencePC, hv]
  · intro hincl data vs rest h
    simp only [sequencePC, hincl, Bool.false_eq_true, if_false] at h
    rcases hrc : readCountless elem (countlessBudget cfg.maxLength) data with e | xs2
    · rw [hrc] at h; simp at h
    · rw [hrc] at h
      simp only [ok_bind] at h
      rcases hval : seqValidate cfg xs2.length with e2 | u
      · rw [hval] at h; simp at h
      · rw [hval] at h
        simp only [ok_bind, Except.ok.injEq, Prod.mk.injEq, Value.list.injEq] at h
        have hlen := readCountless_length_le elem _ data xs2 hrc
        rw [hmax] at hlen
        simp only [countlessBudget] at hlen
        obtain ⟨h1, _⟩ := h
        subst h1
        exact hlen

/-- Witness for C6: a boolean sequence with bounds `[1, 2]` rejects the
empty list on write, and countless decoding of three decodable bytes stops
at 2 elements. -/
theorem claim_C6_witness :
    (sequencePC boolPC { maxLength := some 2, minLength := 1 }).write (.list [])
      = .error "Number of elements is not in [min, max]"
    ∧ (sequencePC boolPC { maxLength := some 2, minLength := 1 }).readF [1, 0, 1]
        = .ok (.list [.bool true, .bool false], [])
    ∧ ([Value.bool true, Value.bool false].length : Nat) ≤ (2 : Int).toNat := by
  have h := claim_C6 boolPC { maxLength := some 2, minLength := 1 } 2 rfl
  refine ⟨h.1 [] (by decide), rfl, ?_⟩
  exact h.2 rfl [1, 0, 1] [Value.bool true, Value.bool false] [] rfl

/-- **C7 (code bug).** A Sequence configured with only a length prefix
(`length_width`, no `max_length`) is constructible — `__init__` only
rejects having neither — but is unusable: `validate` compares the element
count against `self.max = None`, which is `False` for every count under
Python 2, so `write` raises for every list (here `[5]`, whose length the
1-byte prefix could represent) and `read` likewise fails on all data. -/
theorem claim_C7_codebug :
    sequenceInit (intPC { signed := false, width := 1 })
        { maxLength := none, includeLength := true, lengthWidth := some 1 }
      = .ok (sequencePC (intPC { signed := false, width := 1 })
          { maxLength := none, includeLength := true, lengthWidth := some 1 })
    ∧ (sequencePC (intPC { signed := false, width := 1 })
        { maxLength := none, includeLength := true, lengthWidth := some 1 }).write
        (.list [.int 5])
      = .error "Number of elements is not in [min, max]"
    ∧ (sequencePC (intPC { signed := false, width := 1 })
        { maxLength := none, includeLength := true, lengthWidth := some 1 }).readF
        [1, 5]
      = .error "Number of elements is not in [min, max]" := by
  exact ⟨rfl, rfl, rfl⟩

/-- **C8 (code bug).** `UnsignedInteger.capable_of` picks the first
standard width with `2 ** (8*width) >= max_value` — an off-by-one: for
`max_value = 256` it returns the width-1 coder, whose effective maximum is
255 (the user max 256 is beyond the natural range and ignored), so the
returned coder cannot encode 256 even though its docstring promises
values "up to at least max_value"; this is also the length coder a
`Sequence(max_length=256)` gets. The next value 257 correctly yields
width 2. -/
theorem claim_C8_codebug :
    capableWidth (some 256) = some 1
    ∧ ({ signed := false, width := 1, minValue := some 0,
         maxValue := some 256 } : IntCoder).effMax = 255
    ∧ ({ signed := false, width := 1, minValue := some 0,
         maxValue := some 256 } : IntCoder).encode 256
        = .error "value is out of [min, max]"
    ∧ capableWidth (some 257) = some 2
    ∧ lengthCoderFor { maxLength := some 256, includeLength := true }
        = { signed := false, width := 1, minValue := some 0, maxValue := some 256 } := by
  exact ⟨rfl, rfl, rfl, rfl, rfl⟩

/-- With a `max_length` set, the read loop always returns within
`max_length + 1` iterations: the read counter grows every iteration (even
when the stream is exhausted and `read(1)` yields the empty string) until
the cutoff check fires, unless a null byte ends the loop earlier. -/
theorem stringLoop_bounded_total (m : Int) :
    ∀ (fuel : Nat) (data acc : List Nat) (r : Nat),
      m.toNat + 1 ≤ fuel + r → 1 ≤ fuel →
      ∃ res, stringLoop (some m) fuel data acc r = some res := by
  intro fuel
  induction fuel with
  | zero => intro _ _ _ _ hf; omega
  | succ f ih =>
    intro data acc r hb _
    by_cases hhit : stringMaxHit r (some m) = true
    · exact ⟨.error
        "Reached maximum length of string without encountering a NULL terminator",
        by simp [stringLoop, hhit]⟩
    · have hlt : (r : Int) < m := by
        unfold stringMaxHit at hhit
        simpa using hhit
      have hrm : r < m.toNat := by omega
      have hf1 : 1 ≤ f := by omega
      cases data with
      | nil =>
        obtain ⟨res, hres⟩ := ih [] acc (r + 1) (by omega) hf1
        exact ⟨res, by simp [stringLoop, hhit, hres]⟩
      | cons b rest =>
        by_cases hb0 : b = 0
        · exact ⟨.ok (acc, rest), by simp [stringLoop, hhit, hb0]⟩
        · obtain ⟨res, hres⟩ := ih rest (acc ++ [b]) (r + 1) (by omega) hf1
          exact ⟨res, by simp [stringLoop, hhit, hb0, hres]⟩

/-- When the data holds no null byte, any result the loop produces is the
no-terminator error (it can never take the `break`). -/
theorem stringLoop_no_null_error (maxLength : Option Int) :
    ∀ (fuel : Nat) (data acc : List Nat) (r : Nat)
      (res : Except String (List Nat × List Nat)),
      (∀ ch ∈ data, ch ≠ 0) →
      stringLoop maxLength fuel data acc r = some res →
      res = .error
        "Reached maximum length of string without encountering a NULL terminator" := by
  intro fuel
  induction fuel with
  | zero => intro _ _ _ _ _ h; simp [stringLoop] at h
  | succ f ih =>
    intro data acc r res hnn h
    by_cases hhit : stringMaxHit r maxLength = true
    · simp only [stringLoop, hhit, if_true, Option.some.injEq] at h
      exact h.symm
    · simp only [stringLoop, hhit, Bool.false_eq_true, if_false] at h
      cases data with
      | nil => exact ih [] acc (r + 1) res (by simp) h
      | cons b rest =>
        have hb0 : b ≠ 0 := hnn b (List.mem_cons_self b rest)
        have h2 : (if b = 0 then some (Except.ok (acc, rest))
            else stringLoop maxLength f rest (acc ++ [b]) (r + 1)) = some res := h
        rw [if_neg hb0] at h2
        exact ih rest (acc ++ [b]) (r + 1) res
          (fun x hx => hnn x (List.mem_cons_of_mem b hx)) h2

theorem stringLoop_exhausted_none :
    ∀ (fuel : Nat) (acc : List Nat) (r : Nat),
      stringLoop none fuel [] acc r = none := by
  intro fuel
  induction fuel with
  | zero => intro _ _; rfl
  | succ f ih =>
    intro acc r
    simp only [stringLoop, stringMaxHit, Bool.false_eq_true, if_false]
    exact ih acc (r + 1)

/-- **C9 counterexample.** An unbounded String coder
(`String(max_length=None)`, the constructor default) reading the finite
input `"A"` (no null terminator) never terminates: `stream.read(1)` keeps
returning the empty string after exhaustion, which never equals the null
terminator, and with no `max_length` the cutoff never fires. -/
theorem claim_C9_counterexample : ¬ StringReadTerminates none [65] := by
  rintro ⟨fuel, res, h⟩
  cases fuel with
  | zero => simp [stringLoop] at h
  | succ f =>
    simp only [stringLoop, stringMaxHit, Bool.false_eq_true, if_false] at h
    rw [if_neg (by omega)] at h
    rw [stringLoop_exhausted_none] at h
    simp at h

/-- **C9 (amended).** `String.read` terminates on every finite input when a
`max_length` is configured — within `max_length + 1` read steps it either
returns (on a null byte) or fails, and on input with no null byte the
result is precisely the no-terminator error (the loop counts exhausted
reads toward `max_length` too). Without a `max_length`, it terminates
exactly on the inputs that contain a null terminator, returning the bytes
before it. -/
theorem claim_C9_amended :
    (∀ (m : Int) (data : List Nat),
      ∃ res, stringLoop (some m) (m.toNat + 2) data [] 0 = some res)
    ∧ (∀ (m : Int) (data : List Nat) (fuel : Nat)
        (res : Except String (List Nat × List Nat)),
        (∀ ch ∈ data, ch ≠ 0) →
        stringLoop (some m) fuel data [] 0 = some res →
        res = .error
          "Reached maximum length of string without encountering a NULL terminator")
    ∧ (∀ (codes rest : List Nat), (∀ ch ∈ codes, ch ≠ 0) →
        stringLoop none (codes.length + 1) (codes ++ 0 :: rest) [] 0
          = some (.ok (codes, rest))) := by
  refine ⟨?_, ?_, ?_⟩
  · intro m data
    exact stringLoop_bounded_total m (m.toNat + 2) data [] 0 (by omega) (by omega)
  · intro m data fuel res hnn h
    exact stringLoop_no_null_error (some m) fuel data [] 0 res hnn h
  · intro codes rest hnn
    have h := stringLoop_finds_null none codes rest [] 0 (codes.length + 1)
      hnn (by omega) (fun k _ => rfl)
    simpa using h

/-- Witness for C9 at concrete inputs: a bounded read of `"AB"` with
`max_length=1` terminates with the no-terminator error, and an unbounded
read of `"A\0"` terminates with `"A"`. -/
theorem claim_C9_amended_witness :
    (∃ res, stringLoop (some 1) 3 [65, 66] [] 0 = some res)
    ∧ stringLoop (some 1) 3 [65, 66] [] 0 = some (.error
        "Reached maximum length of string without encountering a NULL terminator")
    ∧ stringLoop none 2 [65, 0] [] 0 = some (.ok ([65], [])) := by
  have h := claim_C9_amended
  refine ⟨h.1 1 [65, 66], ?_, ?_⟩
  · obtain ⟨res, hres⟩ : ∃ res, stringLoop (some 1) 3 [65, 66] [] 0 = some res :=
      h.1 1 [65, 66]
    rw [hres]
    rw [h.2.1 1 [65, 66] 3 res (by decide) hres]
  · have := h.2.2 [65] [] (by decide)
    simpa using this

theorem maskShiftGo_lowest :
    ∀ (fuel m : Nat), m ≠ 0 → m ≤ fuel →
      2 ^ maskShiftGo fuel m ∣ m ∧ ¬ 2 ^ (maskShiftGo fuel m + 1) ∣ m := by
  intro fuel
  induction fuel with
  | zero => intro m h0 hle; omega
  | succ f ih =>
    intro m h0 hle
    simp only [maskShiftGo]
    rw [if_neg h0]
    by_cases hodd : m % 2 = 1
    · rw [if_pos hodd]
      refine ⟨one_dvd m, ?_⟩
      intro hd
      simp only [zero_add, pow_one] at hd
      omega
    · rw [if_neg hodd]
      have hm2 : m % 2 = 0 := by omega
      have heq : m = 2 * (m / 2) := by omega
      have hd0 : m / 2 ≠ 0 := by omega
      have hdle : m / 2 ≤ f := by omega
      obtain ⟨h1, h2⟩ := ih (m / 2) hd0 hdle
      set s := maskShiftGo f (m / 2) with hs
      obtain ⟨k, hk⟩ := h1
      constructor
      · refine ⟨k, ?_⟩
        calc m = 2 * (m / 2) := heq
          _ = 2 * (2 ^ s * k) := by rw [← hk]
          _ = 2 ^ (1 + s) * k := by ring
      · rintro ⟨k2, hk2⟩
        apply h2
        refine ⟨k2, ?_⟩
        have hstep : 2 * (m / 2) = 2 * (2 ^ (s + 1) * k2) := by
          rw [← heq, hk2]; ring
        exact Nat.eq_of_mul_eq_mul_left (by omega) hstep

/-- **C10.** For every BitPackedInteger bit-field: the precomputed shift of
a nonzero mask is the index of its lowest set bit (the mask is divisible
by `2^shift` but not `2^(shift+1)`); getting a field computes
`(backing & mask) >> shift` and setting one ORs `mask & (value << shift)`
into the backing value without clearing any previously set bit; and the
spec's example — width-1 fields `packet_type`/`protocol`/`request_ack`/
`field_d` with masks `0b11000000`/`0b00110000`/`0b00001000`/`0b00000111`
set to `(2,1,1,5)` from a zeroed backing value — encodes to `0x9D`. -/
theorem claim_C10 :
    (∀ mask : Nat, mask ≠ 0 →
      2 ^ maskShift mask ∣ mask ∧ ¬ 2 ^ (maskShift mask + 1) ∣ mask)
    ∧ (∀ value mask : Nat, bmGet value mask = (value &&& mask) >>> maskShift mask)
    ∧ (∀ value mask newValue : Nat,
        bmSet value mask newValue = value ||| (mask &&& (newValue <<< maskShift mask)))
    ∧ (∀ value mask newValue i : Nat, value.testBit i = true →
        (bmSet value mask newValue).testBit i = true)
    ∧ bmInit [("packet_type", 0b11000000), ("protocol", 0b00110000),
        ("request_ack", 0b00001000), ("field_d", 0b00000111)]
        [("packet_type", 2), ("protocol", 1), ("request_ack", 1), ("field_d", 5)]
        = 0x9D
    ∧ (bitMaskedPC 1).write (.bits 0x9D) = .ok [0x9D] := by
  refine ⟨?_, fun _ _ => rfl, fun _ _ _ => rfl, ?_, by decide, rfl⟩
  · intro mask h0
    exact maskShiftGo_lowest mask mask h0 (le_refl mask)
  · intro value mask newValue i h
    unfold bmSet
    rw [Nat.testBit_or, h]
    rfl

/-- Witness for C10 at the mask `0b00001000`: shift 3, and setting bit 0
first is not clobbered by a later OR. -/
theorem claim_C10_witness :
    (2 ^ maskShift 8 ∣ 8 ∧ ¬ 2 ^ (maskShift 8 + 1) ∣ 8)
    ∧ (bmSet 1 8 1).testBit 0 = true := by
  have h := claim_C10
  exact ⟨h.1 8 (by decide), h.2.2.2.1 1 8 1 0 (by decide)⟩

end Copperhead
